import Mathlib

/-!
Verification of the kafka-python wire-protocol codec against its
natural-language specification.  The repository snapshot ships only the test
suite and a py2/py3 compatibility shim; the codec itself (`kafka/util.py`,
`kafka/protocol.py`, `kafka/common.py`) is not present, so every definition
below is modelled from the specification (spec.md) and cross-checked against
the byte-level vectors recorded in `test/test_protocol.py` and
`test/test_util.py`.
-/

set_option maxRecDepth 100000

deriving instance DecidableEq for Except

namespace KafkaSpec

/-- Modelled from the spec: wire data is a sequence of octets; we represent a
byte string as a list of naturals, each intended to lie below 256. -/
abbrev Bytes := List Nat

/-- Modelled from the spec (section 7): the error kinds raised by the codec,
`kafka/common.py` being absent from the snapshot.  `bufferUnderflow` is
BufferUnderflowError, `checksumError` is ChecksumError, `protocolError` is
ProtocolError, `fetchSizeTooSmall` is ConsumerFetchSizeTooSmall and
`unsupportedCodec` is UnsupportedCodecError. -/
inductive KafkaError where
  | bufferUnderflow
  | checksumError
  | protocolError
  | fetchSizeTooSmall
  | unsupportedCodec
deriving DecidableEq, Repr

/-- Big-endian bytes of `n % 256^w`, `w` octets wide (the `struct.pack`
big-endian integer layout used throughout the codec). -/
def beBytes : Nat → Nat → Bytes
  | 0, _ => []
  | w + 1, n => beBytes w (n / 256) ++ [n % 256]

/-- Value of a big-endian byte string (the `struct.unpack` direction). -/
def beVal (bs : Bytes) : Nat :=
  bs.foldl (fun a b => a * 256 + b) 0

/-- Two's-complement reading of a `w`-octet unsigned value as a signed
integer. -/
def toSigned (w : Nat) (n : Nat) : Int :=
  if n < 2 ^ (8 * w - 1) then (n : Int) else (n : Int) - 2 ^ (8 * w)

/-- Two's-complement big-endian encoding of a signed integer in `w` octets. -/
def intBytes (w : Nat) (v : Int) : Bytes :=
  beBytes w (v % 2 ^ (8 * w)).toNat

/-- Modelled from the spec (section 4.1, `kafka/util.py` absent):
`write_int_string` writes a 4-byte signed big-endian length then the bytes;
length −1 and no payload for null, length 0 and no payload for empty. -/
def write_int_string : Option Bytes → Bytes
  | none => intBytes 4 (-1)
  | some s => intBytes 4 (s.length : Int) ++ s

/-- Modelled from the spec (section 4.1, `kafka/util.py` absent):
`write_short_string` is the identical contract with a 2-byte length field. -/
def write_short_string : Option Bytes → Bytes
  | none => intBytes 2 (-1)
  | some s => intBytes 2 (s.length : Int) ++ s

/-- Modelled from the spec (section 4.1, `kafka/util.py` absent):
`read_int_string` reads the 4-byte length at `cur`, returns `none` on
length −1, and fails with BufferUnderflow when fewer than the declared
number of bytes remain.  The second component is the number of bytes
consumed. -/
def read_int_string (data : Bytes) (cur : Nat) : Except KafkaError (Option Bytes × Nat) :=
  if data.length < cur + 4 then .error .bufferUnderflow
  else
    let n := beVal ((data.drop cur).take 4)
    if toSigned 4 n = -1 then .ok (none, 4)
    else if data.length < cur + 4 + n then .error .bufferUnderflow
    else .ok (some ((data.drop (cur + 4)).take n), 4 + n)

/-- Field extraction for `relative_unpack`: one unsigned big-endian value per
declared field width, read consecutively. -/
def unpackFieldsAux : List Nat → Bytes → List Nat
  | [], _ => []
  | w :: ws, bs => beVal (bs.take w) :: unpackFieldsAux ws (bs.drop w)

/-- Modelled from the spec (section 4.1, `kafka/util.py` absent):
`relative_unpack` unpacks a fixed-width structure (given by its list of field
widths) at `cur` and fails with BufferUnderflow if the buffer is shorter than
the format requires.  The second component is the number of bytes consumed. -/
def relative_unpack (widths : List Nat) (data : Bytes) (cur : Nat) :
    Except KafkaError (List Nat × Nat) :=
  if data.length < cur + widths.sum then .error .bufferUnderflow
  else .ok (unpackFieldsAux widths (data.drop cur), widths.sum)

/-! ### CRC-32

The codec delegates the checksum to `zlib.crc32`; we model the standard
reflected CRC-32 (polynomial 0xEDB88320, initial and final value
0xFFFFFFFF), which is what zlib computes.  Validated below against the
checksum constants recorded in `test/test_protocol.py`. -/

/-- Reflected CRC-32 generator polynomial. -/
def CRC_POLY : Nat := 0xEDB88320

/-- One bit-step of the reflected CRC-32 register update. -/
def crcStep (x : Nat) : Nat :=
  if x % 2 = 1 then (x / 2) ^^^ CRC_POLY else x / 2

/-- Eight register bit-steps, i.e. one input octet worth of shifting. -/
def crcStep8 (x : Nat) : Nat :=
  crcStep (crcStep (crcStep (crcStep (crcStep (crcStep (crcStep (crcStep x)))))))

/-- Absorb one input byte into the CRC-32 register. -/
def crc32_update (crc b : Nat) : Nat :=
  crcStep8 (crc ^^^ (b % 256))

/-- Modelled from the spec (section 3 invariants): CRC-32 of a byte string,
as computed by `zlib.crc32` (reduced to its unsigned 32-bit value). -/
def crc32 (data : Bytes) : Nat :=
  (data.foldl crc32_update 0xFFFFFFFF) ^^^ 0xFFFFFFFF

/-! ### Message codec -/

/-- Modelled from the spec (section 3, `kafka/common.py` absent): a Message
record.  `key` and `value` are length-prefixed on the wire, where null is
distinguished from empty. -/
structure Message where
  magic : Nat
  attributes : Nat
  key : Option Bytes
  value : Option Bytes
deriving DecidableEq, Repr

/-- Modelled from the spec (section 3): mask selecting the compression codec
bits of the attributes byte. -/
def ATTRIBUTE_CODEC_MASK : Nat := 0x03

/-- Codec tag for uncompressed data. -/
def CODEC_NONE : Nat := 0x00

/-- Codec tag for gzip. -/
def CODEC_GZIP : Nat := 0x01

/-- Codec tag for snappy. -/
def CODEC_SNAPPY : Nat := 0x02

/-- Modelled from the spec (section 4.3): `create_message` builds an
uncompressed magic-0 message wrapping key and value verbatim. -/
def create_message (value : Bytes) (key : Option Bytes := none) : Message :=
  ⟨0, 0, key, some value⟩

/-- Body of an encoded message: the bytes following the CRC field, i.e.
`[magic:1][attributes:1][key:length-prefixed][value:length-prefixed]`. -/
def messageBody (m : Message) : Bytes :=
  [m.magic % 256, m.attributes % 256] ++ write_int_string m.key ++ write_int_string m.value

/-- Full encoded message layout
`[crc32:4][magic:1][attributes:1][key][value]`. -/
def messageBytes (m : Message) : Bytes :=
  beBytes 4 (crc32 (messageBody m)) ++ messageBody m

/-- Modelled from the spec (section 4.3, `kafka/protocol.py` absent):
`encode_message` emits `[crc32:4][magic:1][attributes:1][key][value]`,
failing with ProtocolError when `magic` is not 0. -/
def encode_message (m : Message) : Except KafkaError Bytes :=
  if m.magic = 0 then .ok (messageBytes m) else .error .protocolError

/-- Modelled from the spec (section 4.3, `kafka/protocol.py` absent):
`decode_message` reads the message layout sequentially, validating the
stored CRC against the CRC-32 recomputed over the bytes following the CRC
field, and failing with ChecksumError on mismatch. -/
def decode_message (data : Bytes) : Except KafkaError Message :=
  match relative_unpack [4] data 0 with
  | .error e => .error e
  | .ok (crcs, c1) =>
    if crcs.getD 0 0 ≠ crc32 (data.drop 4) then .error .checksumError
    else
      match relative_unpack [1, 1] data c1 with
      | .error e => .error e
      | .ok (fields, c2) =>
        match read_int_string data (c1 + c2) with
        | .error e => .error e
        | .ok (key, c3) =>
          match read_int_string data (c1 + c2 + c3) with
          | .error e => .error e
          | .ok (value, _) =>
            .ok ⟨fields.getD 0 0, fields.getD 1 0, key, value⟩

/-! ### Message set codec -/

/-- Offset-and-message pair produced by message-set decoding (the
`OffsetAndMessage` namedtuple of `kafka/common.py`). -/
abbrev OffsetAndMessage := Int × Message

/-- Modelled from the spec (section 4.2, `kafka/codec.py` absent): the decode
side of the compression-adapter registry, mapping a nonzero codec tag and a
compressed payload to the decompressed bytes (or an error for an unknown tag
or undecodable payload).  The codec core treats the adapters as opaque
byte-array-to-byte-array transforms, so decoding is parametrised by this
registry. -/
abbrev Codecs := Nat → Bytes → Except KafkaError Bytes

/-- Registry with no usable compression adapters (every nonzero tag is
rejected); sufficient for all uncompressed-path reasoning. -/
def noCodecs : Codecs := fun _ _ => .error .unsupportedCodec

/-- One message-set entry on the wire:
`[offset:8][message_size:4][encoded_message]`. -/
def entryBytes (o : Int) (em : Bytes) : Bytes :=
  intBytes 8 o ++ intBytes 4 (em.length : Int) ++ em

/-- Modelled from the spec (section 4.4, `kafka/protocol.py` absent):
`encode_message_set` emits one `[offset:8][message_size:4][encoded_message]`
entry per message, always with placeholder offset 0; it fails if any
individual message fails to encode. -/
def encode_message_set : List Message → Except KafkaError Bytes
  | [] => .ok []
  | m :: ms =>
    match encode_message m with
    | .error e => .error e
    | .ok em =>
      match encode_message_set ms with
      | .error e => .error e
      | .ok rest => .ok (entryBytes 0 em ++ rest)

/-- Modelled from the spec (sections 4.4 and 9, `kafka/protocol.py` absent):
the message-set decoding loop.  `fuel` is the explicit recursion depth guard
of the spec's design notes; each loop step and each nested (decompressed)
set consumes one unit.  `readAny` records whether a record has already been
fully decoded: a BufferUnderflow on an entry then means silent truncation,
while on the very first entry it is reported as the distinguished
fetch-size-too-small error.  Other errors (checksum, protocol, unsupported
codec) propagate.  A decoded message whose attributes select a codec other
than none has its value decompressed through the registry and recursively
decoded as a nested message set, the inner pairs being flattened into the
output in place of the outer record. -/
def decodeSetLoop (dec : Codecs) : Nat → Bytes → Bool → Except KafkaError (List OffsetAndMessage)
  | 0, _, _ => .error .protocolError
  | fuel + 1, rem, readAny =>
    if rem.length = 0 then .ok []
    else if rem.length < 8 then
      (if readAny then .ok [] else .error .fetchSizeTooSmall)
    else
      match read_int_string rem 8 with
      | .error _ => if readAny then .ok [] else .error .fetchSizeTooSmall
      | .ok (msgOpt, consumed) =>
        let offset := toSigned 8 (beVal (rem.take 8))
        let entryRes : Except KafkaError (List OffsetAndMessage) :=
          match decode_message (msgOpt.getD []) with
          | .error e => .error e
          | .ok m =>
            if m.attributes &&& ATTRIBUTE_CODEC_MASK = CODEC_NONE then .ok [(offset, m)]
            else
              match m.value with
              | none => .error .protocolError
              | some v =>
                match dec (m.attributes &&& ATTRIBUTE_CODEC_MASK) v with
                | .error e => .error e
                | .ok payload => decodeSetLoop dec fuel payload false
        match entryRes with
        | .error .bufferUnderflow => if readAny then .ok [] else .error .fetchSizeTooSmall
        | .error e => .error e
        | .ok oms =>
          match decodeSetLoop dec fuel (rem.drop (8 + consumed)) true with
          | .error e => .error e
          | .ok rest => .ok (oms ++ rest)

/-- Modelled from the spec (section 4.4): `decode_message_set` walks the
buffer yielding `(offset, Message)` pairs, with the truncation policy and
compressed-record flattening of `decodeSetLoop`. -/
def decode_message_set (dec : Codecs) (fuel : Nat) (data : Bytes) :
    Except KafkaError (List OffsetAndMessage) :=
  decodeSetLoop dec fuel data false

/-- Modelled from the spec (section 4.4): expansion of a single decoded
record at a caller-supplied outer offset.  An uncompressed message yields
the single pair `(offset, message)`; a compressed one has its value
decompressed and recursively decoded as a nested message set, whose pairs
replace the outer record (so the inner offsets take precedence). -/
def decode_message_expand (dec : Codecs) (fuel : Nat) (offset : Int) (data : Bytes) :
    Except KafkaError (List OffsetAndMessage) :=
  match decode_message data with
  | .error e => .error e
  | .ok m =>
    if m.attributes &&& ATTRIBUTE_CODEC_MASK = CODEC_NONE then .ok [(offset, m)]
    else
      match m.value with
      | none => .error .protocolError
      | some v =>
        match dec (m.attributes &&& ATTRIBUTE_CODEC_MASK) v with
        | .error e => .error e
        | .ok payload => decodeSetLoop dec fuel payload false

/-! ### Grouping and the produce request encoder -/

/-- Modelled from the spec (section 3, `kafka/common.py` absent): the
`(topic, partition)` key type used to group flat request lists. -/
structure TopicAndPartition where
  topic : Bytes
  partition : Int
deriving DecidableEq, Repr

/-- Association-list lookup by decidable key equality (models python dict
lookup). -/
def alookup {κ ν : Type} [DecidableEq κ] (k : κ) : List (κ × ν) → Option ν
  | [] => none
  | (k1, v1) :: rest => if k1 = k then some v1 else alookup k rest

/-- Insert-or-update on an association list: an existing binding for the key
is replaced in place, a new key is appended (models python dict item
assignment, which preserves first-insertion order). -/
def upsert {κ ν : Type} [DecidableEq κ] (k : κ) (v : ν) : List (κ × ν) → List (κ × ν)
  | [] => [(k, v)]
  | (k1, v1) :: rest => if k1 = k then (k, v) :: rest else (k1, v1) :: upsert k v rest

/-- One step of `group_by_topic_and_partition`: file the item under its topic
and partition, overwriting any previous item with the same key pair. -/
def insertItem {α : Type} (topicOf : α → Bytes) (partOf : α → Int)
    (acc : List (Bytes × List (Int × α))) (x : α) : List (Bytes × List (Int × α)) :=
  upsert (topicOf x) (upsert (partOf x) x ((alookup (topicOf x) acc).getD [])) acc

/-- Modelled from the spec (section 4.1, `kafka/util.py` absent):
`group_by_topic_and_partition` reshapes a flat list of topic/partition-keyed
items into a nested mapping topic → partition → item (modelled as nested
association lists in first-insertion order). -/
def group_by_topic_and_partition {α : Type} (topicOf : α → Bytes) (partOf : α → Int)
    (items : List α) : List (Bytes × List (Int × α)) :=
  items.foldl (insertItem topicOf partOf) []

/-- Lookup in the nested grouping produced by
`group_by_topic_and_partition`. -/
def lookupTP {α : Type} (g : List (Bytes × List (Int × α))) (t : Bytes) (p : Int) :
    Option α :=
  match alookup t g with
  | none => none
  | some l => alookup p l

/-- Modelled from the spec (section 3, `kafka/common.py` absent): the
ProduceRequest value type. -/
structure ProduceRequest where
  topic : Bytes
  partition : Int
  messages : List Message
deriving DecidableEq, Repr

/-- Modelled from the spec (section 4.5): the shared request header after the
length field: `[api_key:2][api_version:2][correlation_id:4][client_id]`. -/
def encode_message_header (client_id : Bytes) (correlation_id : Int) (request_key : Int) :
    Bytes :=
  intBytes 2 request_key ++ intBytes 2 0 ++ intBytes 4 correlation_id ++
    write_short_string (some client_id)

/-- API key of the produce request. -/
def PRODUCE_KEY : Int := 0

/-- Per-partition block of a produce request:
`[partition:4][message_set_size:4][encoded_message_set]`. -/
def producePartitionBytes (p : Int) (msgset : Bytes) : Bytes :=
  intBytes 4 p ++ intBytes 4 (msgset.length : Int) ++ msgset

/-- Modelled from the spec (section 4.5, `kafka/protocol.py` absent):
`encode_produce_request` groups the flat request list by topic and
partition, then emits the shared header, `[required_acks:2][timeout_ms:4]
[num_topics:4]` and, per topic, `[topic][num_partitions:4]` followed by the
per-partition message-set blocks, the whole frame prefixed with its 4-byte
length. -/
def encode_produce_request (client_id : Bytes) (correlation_id : Int)
    (payloads : List ProduceRequest) (acks : Int) (timeout : Int) :
    Except KafkaError Bytes := do
  let grouped := group_by_topic_and_partition (fun r => r.topic) (fun r => r.partition) payloads
  let blocks ← grouped.mapM (fun tp => do
    let parts ← tp.2.mapM (fun pr => do
      let msgset ← encode_message_set pr.2.messages
      pure (producePartitionBytes pr.1 msgset))
    pure (write_short_string (some tp.1) ++ intBytes 4 (tp.2.length : Int) ++ parts.flatten))
  let body := encode_message_header client_id correlation_id PRODUCE_KEY ++
    intBytes 2 acks ++ intBytes 4 timeout ++ intBytes 4 (grouped.length : Int) ++
    blocks.flatten
  pure (write_int_string (some body))

/-! ### Arithmetic of the big-endian byte primitives -/

theorem beBytes_length (w n : Nat) : (beBytes w n).length = w := by
  induction w generalizing n with
  | zero => rfl
  | succ w ih => simp [beBytes, ih]

theorem beVal_append_singleton (l : Bytes) (b : Nat) :
    beVal (l ++ [b]) = beVal l * 256 + b := by
  simp [beVal, List.foldl_append]

theorem beVal_beBytes (w n : Nat) : beVal (beBytes w n) = n % 256 ^ w := by
  induction w generalizing n with
  | zero => simp [beBytes, beVal, Nat.mod_one]
  | succ w ih =>
    rw [beBytes, beVal_append_singleton, ih]
    have h : (256 : Nat) ^ (w + 1) = 256 * 256 ^ w := by
      rw [pow_succ, Nat.mul_comm]
    rw [h, Nat.mod_mul]
    omega

theorem mem_beBytes_lt (w n : Nat) : ∀ b ∈ beBytes w n, b < 256 := by
  induction w generalizing n with
  | zero => simp [beBytes]
  | succ w ih =>
    intro b hb
    rw [beBytes, List.mem_append] at hb
    rcases hb with hb | hb
    · exact ih _ b hb
    · simp only [List.mem_singleton] at hb
      omega

theorem beBytes_mod (w n : Nat) : beBytes w (n % 256 ^ w) = beBytes w n := by
  induction w generalizing n with
  | zero => rfl
  | succ w ih =>
    rw [beBytes, beBytes]
    have hpow : (256 : Nat) ^ (w + 1) = 256 * 256 ^ w := by
      rw [pow_succ, Nat.mul_comm]
    have hmod : n % 256 ^ (w + 1) % 256 = n % 256 := by
      rw [hpow]
      exact Nat.mod_mod_of_dvd n ⟨256 ^ w, rfl⟩
    have hdiv : n % 256 ^ (w + 1) / 256 = n / 256 % 256 ^ w := by
      rw [hpow, ← Nat.div_mod_eq_mod_mul_div]
    rw [hmod, hdiv, ← ih (n / 256)]

theorem beBytes_beVal (l : Bytes) (w : Nat) (hlen : l.length = w)
    (hb : ∀ b ∈ l, b < 256) : beBytes w (beVal l) = l := by
  induction l using List.reverseRecOn generalizing w with
  | nil => simp_all [beVal, beBytes]; subst hlen; rfl
  | append_singleton xs x ih =>
    have hx : x < 256 := hb x (by simp)
    have hlen2 : xs.length + 1 = w := by simpa using hlen
    subst hlen2
    rw [beVal_append_singleton, beBytes]
    have hdiv : (beVal xs * 256 + x) / 256 = beVal xs := by omega
    have hmod : (beVal xs * 256 + x) % 256 = x := by omega
    rw [hdiv, hmod, ih xs.length rfl (fun b hb2 => hb b (by simp [hb2]))]

theorem beVal_lt (l : Bytes) (hb : ∀ b ∈ l, b < 256) : beVal l < 256 ^ l.length := by
  induction l using List.reverseRecOn with
  | nil => simp [beVal]
  | append_singleton xs x ih =>
    have hx : x < 256 := hb x (by simp)
    have h1 : beVal xs < 256 ^ xs.length := ih (fun b hb2 => hb b (by simp [hb2]))
    rw [beVal_append_singleton]
    simp only [List.length_append, List.length_singleton, pow_succ]
    omega

theorem intBytes_length (w : Nat) (v : Int) : (intBytes w v).length = w :=
  beBytes_length _ _

theorem intBytes_ofNat (w : Nat) (n : Nat) : intBytes w (n : Int) = beBytes w n := by
  rw [intBytes]
  have h1 : ((n : Int)) % (2 ^ (8 * w)) = ((n % 2 ^ (8 * w) : Nat) : Int) := by
    push_cast
    rfl
  rw [h1, Int.toNat_natCast]
  have h2 : (256 : Nat) ^ w = 2 ^ (8 * w) := by
    rw [Nat.pow_mul]
  rw [← h2, beBytes_mod]

theorem beVal_intBytes (w : Nat) (v : Int) :
    beVal (intBytes w v) = (v % 2 ^ (8 * w)).toNat := by
  rw [intBytes, beVal_beBytes]
  have h2 : (256 : Nat) ^ w = 2 ^ (8 * w) := by rw [Nat.pow_mul]
  have hpos : (0 : Int) < 2 ^ (8 * w) := by positivity
  have hlo : 0 ≤ v % (2 ^ (8 * w)) := Int.emod_nonneg v (ne_of_gt hpos)
  have hhi : v % (2 ^ (8 * w)) < 2 ^ (8 * w) := Int.emod_lt_of_pos v hpos
  have hcast : (((2 : Nat) ^ (8 * w) : Nat) : Int) = (2 : Int) ^ (8 * w) := by
    push_cast
    rfl
  have h3 : (v % (2 ^ (8 * w))).toNat < 2 ^ (8 * w) := by omega
  rw [h2]
  exact Nat.mod_eq_of_lt h3

theorem toSigned_of_lt {w n : Nat} (h : n < 2 ^ (8 * w - 1)) : toSigned w n = n :=
  if_pos h

theorem toSigned_beVal_intBytes_8 (o : Int) (h1 : -(2 ^ 63) ≤ o) (h2 : o < 2 ^ 63) :
    toSigned 8 (beVal (intBytes 8 o)) = o := by
  rw [beVal_intBytes, toSigned]
  have h64 : (8 * 8 : Nat) = 64 := rfl
  have e1 : (2 : Int) ^ 64 = 18446744073709551616 := by norm_num
  have e2 : (2 : Nat) ^ (64 - 1) = 9223372036854775808 := by norm_num
  have e3 : (2 : Int) ^ 63 = 9223372036854775808 := by norm_num
  rw [e3] at h1 h2
  simp only [h64, e1, e2]
  split <;> omega

/-! ### CRC-32 register bounds -/

theorem crcStep_lt {x : Nat} (h : x < 2 ^ 32) : crcStep x < 2 ^ 32 := by
  rw [crcStep]
  split
  · exact Nat.xor_lt_two_pow (by omega) (by norm_num [CRC_POLY])
  · omega

theorem crcStep8_lt {x : Nat} (h : x < 2 ^ 32) : crcStep8 x < 2 ^ 32 := by
  rw [crcStep8]
  exact crcStep_lt (crcStep_lt (crcStep_lt (crcStep_lt
    (crcStep_lt (crcStep_lt (crcStep_lt (crcStep_lt h)))))))

theorem crc32_update_lt {c : Nat} (h : c < 2 ^ 32) (b : Nat) : crc32_update c b < 2 ^ 32 := by
  rw [crc32_update]
  exact crcStep8_lt (Nat.xor_lt_two_pow h (by omega))

theorem foldl_crc32_update_lt {c : Nat} (h : c < 2 ^ 32) (l : Bytes) :
    l.foldl crc32_update c < 2 ^ 32 := by
  induction l generalizing c with
  | nil => exact h
  | cons b l ih => exact ih (crc32_update_lt h b)

theorem crc32_lt (l : Bytes) : crc32 l < 2 ^ 32 := by
  rw [crc32]
  exact Nat.xor_lt_two_pow (foldl_crc32_update_lt (by norm_num) l) (by norm_num)

/-! ### Reading back what the writers wrote -/

theorem read_int_string_at_some (pre s suffix : Bytes) (h : s.length < 2 ^ 31) :
    read_int_string (pre ++ (write_int_string (some s) ++ suffix)) pre.length =
      .ok (some s, 4 + s.length) := by
  have hlen32 : s.length < 2 ^ 32 := by omega
  have hassoc : pre ++ (write_int_string (some s) ++ suffix) =
      pre ++ (intBytes 4 (s.length : Int) ++ (s ++ suffix)) := by
    rw [write_int_string]
    simp [List.append_assoc]
  rw [hassoc, read_int_string]
  have hL : (pre ++ (intBytes 4 (s.length : Int) ++ (s ++ suffix))).length =
      pre.length + (4 + (s.length + suffix.length)) := by
    simp [intBytes_length]
  have hnle : ¬ (pre ++ (intBytes 4 (s.length : Int) ++ (s ++ suffix))).length <
      pre.length + 4 := by omega
  rw [if_neg hnle]
  have hdrop : (pre ++ (intBytes 4 (s.length : Int) ++ (s ++ suffix))).drop pre.length =
      intBytes 4 (s.length : Int) ++ (s ++ suffix) := List.drop_left _ _
  have htake : (intBytes 4 (s.length : Int) ++ (s ++ suffix)).take 4 =
      intBytes 4 (s.length : Int) := List.take_left' (intBytes_length _ _)
  have hn : beVal (((pre ++ (intBytes 4 (s.length : Int) ++ (s ++ suffix))).drop
      pre.length).take 4) = s.length := by
    rw [hdrop, htake, intBytes_ofNat, beVal_beBytes]
    have : (256 : Nat) ^ 4 = 2 ^ 32 := by norm_num
    omega
  simp only [hn]
  have hts : toSigned 4 s.length = (s.length : Int) := toSigned_of_lt (by omega)
  rw [if_neg (by rw [hts]; omega)]
  rw [if_neg (by omega)]
  have hdrop2 : (pre ++ (intBytes 4 (s.length : Int) ++ (s ++ suffix))).drop
      (pre.length + 4) = s ++ suffix := by
    have : pre ++ (intBytes 4 (s.length : Int) ++ (s ++ suffix)) =
        (pre ++ intBytes 4 (s.length : Int)) ++ (s ++ suffix) := by
      simp [List.append_assoc]
    rw [this]
    exact List.drop_left' (by simp [intBytes_length])
  rw [hdrop2, List.take_left]

theorem read_int_string_at_none (pre suffix : Bytes) :
    read_int_string (pre ++ (write_int_string none ++ suffix)) pre.length =
      .ok (none, 4) := by
  have hw : write_int_string none = intBytes 4 (-1) := rfl
  rw [hw, read_int_string]
  have hL : (pre ++ (intBytes 4 (-1) ++ suffix)).length =
      pre.length + (4 + suffix.length) := by simp [intBytes_length]
  rw [if_neg (by omega)]
  have hdrop : (pre ++ (intBytes 4 (-1) ++ suffix)).drop pre.length =
      intBytes 4 (-1) ++ suffix := List.drop_left _ _
  have htake : (intBytes 4 (-1) ++ suffix).take 4 = intBytes 4 (-1) :=
    List.take_left' (intBytes_length _ _)
  have hn : beVal (((pre ++ (intBytes 4 (-1) ++ suffix)).drop pre.length).take 4) =
      2 ^ 32 - 1 := by
    rw [hdrop, htake]
    decide
  simp only [hn]
  rw [if_pos (by decide)]

/-! ### Decoding a validly encoded message -/

theorem messageBytes_eq (m : Message) :
    messageBytes m = beBytes 4 (crc32 (messageBody m)) ++ messageBody m := rfl

theorem relative_unpack_head (w : Nat) (c : Nat) (body : Bytes) :
    relative_unpack [w] (beBytes w c ++ body) 0 = .ok ([c % 256 ^ w], w) := by
  rw [relative_unpack]
  have hsum : ([w] : List Nat).sum = w := by simp
  have hL : (beBytes w c ++ body).length = w + body.length := by simp [beBytes_length]
  rw [if_neg (by omega)]
  simp only [List.drop_zero, unpackFieldsAux]
  rw [List.take_left' (beBytes_length w c), beVal_beBytes, hsum]

theorem relative_unpack_two_at (pre : Bytes) (b0 b1 : Nat) (rest : Bytes) :
    relative_unpack [1, 1] (pre ++ (b0 :: b1 :: rest)) pre.length =
      .ok ([b0, b1], 2) := by
  rw [relative_unpack]
  have hsum : ([1, 1] : List Nat).sum = 2 := by simp
  rw [hsum]
  have hL : (pre ++ (b0 :: b1 :: rest)).length = pre.length + (2 + rest.length) := by
    simp only [List.length_append, List.length_cons]
    omega
  rw [if_neg (by omega)]
  rw [List.drop_left]
  simp [unpackFieldsAux, beVal]

theorem decode_message_at_layout (c b1 : Nat) (k v : Option Bytes)
    (hc : c < 2 ^ 32) (hb1 : b1 < 256)
    (hcrc : c = crc32 ((0 : Nat) :: b1 :: (write_int_string k ++ write_int_string v)))
    (hk : (k.getD []).length < 2 ^ 31) (hv : (v.getD []).length < 2 ^ 31) :
    decode_message (beBytes 4 c ++
        ((0 : Nat) :: b1 :: (write_int_string k ++ write_int_string v))) =
      .ok ⟨0, b1, k, v⟩ := by
  set body := (0 : Nat) :: b1 :: (write_int_string k ++ write_int_string v) with hbdef
  rw [decode_message, relative_unpack_head]
  have hcm : c % 256 ^ 4 = c := by
    have h2 : (256 : Nat) ^ 4 = 2 ^ 32 := by norm_num
    omega
  rw [hcm]
  have hdrop4 : (beBytes 4 c ++ body).drop 4 = body := List.drop_left' (beBytes_length 4 _)
  rw [hdrop4]
  simp only [List.getD_cons_zero]
  rw [if_neg (by simp [← hcrc])]
  have h2at : relative_unpack [1, 1] (beBytes 4 c ++ body) 4 = .ok ([0, b1], 2) := by
    have hlen : (beBytes 4 c).length = 4 := beBytes_length 4 _
    rw [← hlen, hbdef]
    exact relative_unpack_two_at _ 0 b1 _
  rw [h2at]
  dsimp only
  have hkeyread : read_int_string (beBytes 4 c ++ body) (4 + 2) =
      .ok (k, 4 + (k.getD []).length) := by
    have hre : beBytes 4 c ++ body =
        (beBytes 4 c ++ [0, b1]) ++ (write_int_string k ++ write_int_string v) := by
      rw [hbdef]
      simp [List.append_assoc]
    have hplen : (beBytes 4 c ++ [0, b1]).length = 4 + 2 := by simp [beBytes_length]
    rw [hre, ← hplen]
    cases hkc : k with
    | none => simpa using read_int_string_at_none (beBytes 4 c ++ [0, b1]) (write_int_string v)
    | some ks =>
      have hkl : ks.length < 2 ^ 31 := by
        rw [hkc] at hk
        simpa using hk
      simpa using read_int_string_at_some (beBytes 4 c ++ [0, b1]) ks (write_int_string v) hkl
  rw [hkeyread]
  dsimp only
  have hvalread : read_int_string (beBytes 4 c ++ body)
      (4 + 2 + (4 + (k.getD []).length)) = .ok (v, 4 + (v.getD []).length) := by
    have hre : beBytes 4 c ++ body =
        ((beBytes 4 c ++ [0, b1]) ++ write_int_string k) ++ (write_int_string v ++ []) := by
      rw [hbdef]
      simp [List.append_assoc]
    have hplen : ((beBytes 4 c ++ [0, b1]) ++ write_int_string k).length =
        4 + 2 + (4 + (k.getD []).length) := by
      cases hkc : k with
      | none => simp [beBytes_length, write_int_string, intBytes_length] <;> omega
      | some ks => simp [beBytes_length, write_int_string, intBytes_length] <;> omega
    rw [hre, ← hplen]
    cases hvc : v with
    | none =>
      simpa using read_int_string_at_none
        ((beBytes 4 c ++ [0, b1]) ++ write_int_string k) ([] : Bytes)
    | some vs =>
      have hvl : vs.length < 2 ^ 31 := by
        rw [hvc] at hv
        simpa using hv
      simpa using read_int_string_at_some
        ((beBytes 4 c ++ [0, b1]) ++ write_int_string k) vs ([] : Bytes) hvl
  rw [hvalread]
  rfl

theorem decode_messageBytes (m : Message) (hmagic : m.magic = 0)
    (hatt : m.attributes < 256)
    (hkey : (m.key.getD []).length < 2 ^ 31)
    (hvalue : (m.value.getD []).length < 2 ^ 31) :
    decode_message (messageBytes m) = .ok m := by
  have hbody : messageBody m =
      (0 : Nat) :: m.attributes ::
        (write_int_string m.key ++ write_int_string m.value) := by
    rw [messageBody, hmagic, Nat.mod_eq_of_lt hatt]
    rfl
  have hres := decode_message_at_layout (crc32 (messageBody m)) m.attributes
    m.key m.value (crc32_lt _) hatt (by rw [hbody]) hkey hvalue
  rw [messageBytes_eq, hbody]
  rw [hbody] at hres
  rw [hres]
  cases m with
  | mk mg at_ k v =>
    simp only at hmagic
    subst hmagic
    rfl

/-! ### Claims C1, C7, C8, C9 -/

/-- C1: for every Message `m` with magic 0 (any attributes byte, any key
including null, any value), decoding the bytes produced by `encode_message`
yields `m` back: `decode_message (encode_message m) = m`, the encoded layout
being `[crc32:4][magic:1][attributes:1][key:length-prefixed]
[value:length-prefixed]`.  The attributes field is a u8 and key/value lengths
fit the 4-byte signed length field, per the data model. -/
theorem claim_C1_message_roundtrip (m : Message) (hmagic : m.magic = 0)
    (hatt : m.attributes < 256)
    (hkey : (m.key.getD []).length < 2 ^ 31)
    (hvalue : (m.value.getD []).length < 2 ^ 31) :
    (encode_message m).bind decode_message = .ok m := by
  rw [encode_message, if_pos hmagic]
  show decode_message (messageBytes m) = .ok m
  exact decode_messageBytes m hmagic hatt hkey hvalue

/-- Witness for C1 at the concrete key/value of `test_encode_message` and
`test_decode_message` (key "key", value "test"). -/
theorem claim_C1_witness :
    (encode_message (create_message [116, 101, 115, 116] (some [107, 101, 121]))).bind
        decode_message =
      .ok (create_message [116, 101, 115, 116] (some [107, 101, 121])) :=
  claim_C1_message_roundtrip _ rfl (by decide) (by decide) (by decide)

/-- C7: the 4-byte length-prefixed write primitive distinguishes null from
empty — `write_int_string none` is exactly `0xFFFFFFFF`, `write_int_string
(some [])` is exactly `0x00000000`, and reading each back returns
`(none, 4)` and `(some [], 4)` respectively. -/
theorem claim_C7_null_vs_empty :
    write_int_string none = [255, 255, 255, 255] ∧
    write_int_string (some []) = [0, 0, 0, 0] ∧
    read_int_string (write_int_string none) 0 = .ok (none, 4) ∧
    read_int_string (write_int_string (some [])) 0 = .ok (some [], 4) := by
  refine ⟨?_, ?_, ?_, ?_⟩ <;> decide

/-- C8: a length-prefixed read whose declared length exceeds the bytes
remaining after the length field fails with BufferUnderflowError, and
`relative_unpack` on a buffer shorter than its fixed format requires fails
with BufferUnderflowError; neither returns partial output. -/
theorem claim_C8_underflow :
    (∀ (data : Bytes) (cur : Nat),
      cur + 4 ≤ data.length →
      beVal ((data.drop cur).take 4) < 2 ^ 31 →
      data.length < cur + 4 + beVal ((data.drop cur).take 4) →
      read_int_string data cur = .error .bufferUnderflow) ∧
    (∀ (widths : List Nat) (data : Bytes) (cur : Nat),
      data.length < cur + widths.sum →
      relative_unpack widths data cur = .error .bufferUnderflow) := by
  constructor
  · intro data cur h1 h2 h3
    rw [read_int_string, if_neg (by omega)]
    dsimp only
    rw [toSigned_of_lt h2]
    rw [if_neg (by omega), if_pos h3]
  · intro widths data cur h
    rw [relative_unpack, if_pos h]

/-- Witness for C8 at the concrete buffers of
`test_read_int_string__insufficient_data` and `test_relative_unpack`. -/
theorem claim_C8_witness :
    read_int_string [0, 0, 0, 2, 49] 0 = .error .bufferUnderflow ∧
    relative_unpack [2, 2] [0] 0 = .error .bufferUnderflow :=
  ⟨claim_C8_underflow.1 [0, 0, 0, 2, 49] 0 (by decide) (by decide) (by decide),
   claim_C8_underflow.2 [2, 2] [0] 0 (by decide)⟩

/-- C9: `encode_message` fails with ProtocolError exactly when the message's
magic is not 0; for magic 0 it produces bytes without raising. -/
theorem claim_C9_encode_magic (m : Message) :
    (m.magic = 0 → (encode_message m).isOk = true) ∧
    (m.magic ≠ 0 → encode_message m = .error .protocolError) := by
  constructor
  · intro h
    rw [encode_message, if_pos h]
    rfl
  · intro h
    rw [encode_message, if_neg h]

/-- Witness for C9: magic 0 encodes, magic 1 (the input of
`test_encode_message_failure`) raises ProtocolError. -/
theorem claim_C9_witness :
    (encode_message (create_message [116, 101, 115, 116] (some [107, 101, 121]))).isOk = true ∧
    encode_message ⟨1, 0, some [107, 101, 121], some [116, 101, 115, 116]⟩ =
      .error .protocolError :=
  ⟨(claim_C9_encode_magic _).1 rfl, (claim_C9_encode_magic _).2 (by decide)⟩

/-! ### Message-set decoding of well-formed entries -/

theorem write_int_string_length (k : Option Bytes) :
    (write_int_string k).length = 4 + (k.getD []).length := by
  cases k <;> simp [write_int_string, intBytes_length]

theorem messageBytes_length (m : Message) :
    (messageBytes m).length = 14 + (m.key.getD []).length + (m.value.getD []).length := by
  simp only [messageBytes, messageBody, List.length_append, List.length_cons,
    List.length_nil, beBytes_length, write_int_string_length]
  omega

/-- Well-formedness of a decoded message-set entry as constrained by the
data model: a 64-bit offset, magic 0, a u8 attributes byte selecting no
compression, and key/value sizes within the wire format's bounds. -/
def entryWF (om : Int × Message) : Prop :=
  -(2 ^ 63) ≤ om.1 ∧ om.1 < 2 ^ 63 ∧ om.2.magic = 0 ∧ om.2.attributes < 256 ∧
  om.2.attributes &&& ATTRIBUTE_CODEC_MASK = CODEC_NONE ∧
  (om.2.key.getD []).length < 2 ^ 28 ∧ (om.2.value.getD []).length < 2 ^ 28

instance (om : Int × Message) : Decidable (entryWF om) := by
  unfold entryWF
  infer_instance

theorem decodeSetLoop_succ (dec : Codecs) (fuel : Nat) (rem : Bytes) (readAny : Bool) :
    decodeSetLoop dec (fuel + 1) rem readAny =
      (if rem.length = 0 then .ok []
      else if rem.length < 8 then
        (if readAny then .ok [] else .error .fetchSizeTooSmall)
      else
        match read_int_string rem 8 with
        | .error _ => if readAny then .ok [] else .error .fetchSizeTooSmall
        | .ok (msgOpt, consumed) =>
          let offset := toSigned 8 (beVal (rem.take 8))
          let entryRes : Except KafkaError (List OffsetAndMessage) :=
            match decode_message (msgOpt.getD []) with
            | .error e => .error e
            | .ok m =>
              if m.attributes &&& ATTRIBUTE_CODEC_MASK = CODEC_NONE then .ok [(offset, m)]
              else
                match m.value with
                | none => .error .protocolError
                | some v =>
                  match dec (m.attributes &&& ATTRIBUTE_CODEC_MASK) v with
                  | .error e => .error e
                  | .ok payload => decodeSetLoop dec fuel payload false
          match entryRes with
          | .error .bufferUnderflow => if readAny then .ok [] else .error .fetchSizeTooSmall
          | .error e => .error e
          | .ok oms =>
            match decodeSetLoop dec fuel (rem.drop (8 + consumed)) true with
            | .error e => .error e
            | .ok rest => .ok (oms ++ rest)) := rfl

theorem decodeSetLoop_short_tail (dec : Codecs) (fuel : Nat) (tl : Bytes)
    (htl : tl.length < 12) (hfuel : 0 < fuel) :
    decodeSetLoop dec fuel tl true = .ok [] := by
  cases fuel with
  | zero => omega
  | succ f =>
    rw [decodeSetLoop_succ]
    by_cases h0 : tl.length = 0
    · rw [if_pos h0]
    · rw [if_neg h0]
      by_cases h8 : tl.length < 8
      · rw [if_pos h8]
        rfl
      · rw [if_neg h8]
        have hread : read_int_string tl 8 = .error .bufferUnderflow := by
          rw [read_int_string, if_pos (by omega)]
        rw [hread]
        rfl

theorem decodeSetLoop_entries (dec : Codecs) (oms : List (Int × Message)) (tl : Bytes)
    (hwf : ∀ om ∈ oms, entryWF om) (hne : oms ≠ []) (htl : tl.length < 12) :
    ∀ (fuel : Nat) (readAny : Bool), oms.length < fuel →
    decodeSetLoop dec fuel
      ((oms.map (fun om => entryBytes om.1 (messageBytes om.2))).flatten ++ tl) readAny =
      .ok oms := by
  induction oms with
  | nil => exact absurd rfl hne
  | cons om rest ih =>
    intro fuel readAny hfuel
    obtain ⟨o, m⟩ := om
    obtain ⟨f, rfl⟩ : ∃ f, fuel = f + 1 := ⟨fuel - 1, by omega⟩
    have hwf0 : entryWF (o, m) := hwf _ (by simp)
    simp only [entryWF] at hwf0
    obtain ⟨ho1, ho2, hmagic, hatt, hcodec, hklen, hvlen⟩ := hwf0
    have hemlen : (messageBytes m).length < 2 ^ 31 := by
      rw [messageBytes_length]
      omega
    have hdata : ((((o, m) :: rest).map
        (fun om2 => entryBytes om2.1 (messageBytes om2.2))).flatten ++ tl) =
        intBytes 8 o ++ (write_int_string (some (messageBytes m)) ++
          ((rest.map (fun om2 => entryBytes om2.1 (messageBytes om2.2))).flatten ++ tl)) := by
      simp [entryBytes, write_int_string, List.append_assoc]
    rw [hdata, decodeSetLoop_succ]
    have hlen : (intBytes 8 o ++ (write_int_string (some (messageBytes m)) ++
        ((rest.map (fun om2 => entryBytes om2.1 (messageBytes om2.2))).flatten ++ tl))).length =
        8 + (4 + (messageBytes m).length) +
          ((rest.map (fun om2 => entryBytes om2.1 (messageBytes om2.2))).flatten ++ tl).length := by
      simp only [List.length_append, intBytes_length, write_int_string_length,
        Option.getD_some]
      omega
    rw [if_neg (by omega), if_neg (by omega)]
    have hread : read_int_string (intBytes 8 o ++ (write_int_string (some (messageBytes m)) ++
        ((rest.map (fun om2 => entryBytes om2.1 (messageBytes om2.2))).flatten ++ tl))) 8 =
        .ok (some (messageBytes m), 4 + (messageBytes m).length) := by
      have h8 : (intBytes 8 o).length = 8 := intBytes_length _ _
      rw [← h8]
      exact read_int_string_at_some _ (messageBytes m) _ hemlen
    rw [hread]
    dsimp only [Option.getD_some]
    have htake : (intBytes 8 o ++ (write_int_string (some (messageBytes m)) ++
        ((rest.map (fun om2 => entryBytes om2.1 (messageBytes om2.2))).flatten ++ tl))).take 8 =
        intBytes 8 o := List.take_left' (intBytes_length _ _)
    rw [htake, toSigned_beVal_intBytes_8 o ho1 ho2]
    have hdec : decode_message (messageBytes m) = .ok m :=
      decode_messageBytes m hmagic hatt (by omega) (by omega)
    rw [hdec]
    dsimp only
    rw [if_pos hcodec]
    have hdrop : (intBytes 8 o ++ (write_int_string (some (messageBytes m)) ++
        ((rest.map (fun om2 => entryBytes om2.1 (messageBytes om2.2))).flatten ++ tl))).drop
        (8 + (4 + (messageBytes m).length)) =
        (rest.map (fun om2 => entryBytes om2.1 (messageBytes om2.2))).flatten ++ tl := by
      have hre : intBytes 8 o ++ (write_int_string (some (messageBytes m)) ++
          ((rest.map (fun om2 => entryBytes om2.1 (messageBytes om2.2))).flatten ++ tl)) =
          (intBytes 8 o ++ write_int_string (some (messageBytes m))) ++
            ((rest.map (fun om2 => entryBytes om2.1 (messageBytes om2.2))).flatten ++ tl) := by
        simp [List.append_assoc]
      rw [hre]
      exact List.drop_left' (by simp [intBytes_length, write_int_string_length])
    rw [hdrop]
    cases rest with
    | nil =>
      have htl2 : (([] : List (Int × Message)).map
          (fun om2 => entryBytes om2.1 (messageBytes om2.2))).flatten ++ tl = tl := by
        simp
      rw [htl2, decodeSetLoop_short_tail dec f tl htl (by simp at hfuel; omega)]
      rfl
    | cons r rs =>
      rw [ih (fun om2 hmem => hwf om2 (by simp [hmem])) (by simp) f true
        (by simp at hfuel ⊢; omega)]
      rfl

/-- Encoding a message set of magic-0 messages yields exactly the
concatenation of `[offset 0][size][encoded message]` entries. -/
theorem encode_message_set_eq (msgs : List Message) (h : ∀ m ∈ msgs, m.magic = 0) :
    encode_message_set msgs =
      .ok ((msgs.map (fun m => entryBytes 0 (messageBytes m))).flatten) := by
  induction msgs with
  | nil => rfl
  | cons m ms ih =>
    rw [encode_message_set, encode_message, if_pos (h m (by simp))]
    rw [ih (fun m2 hm2 => h m2 (by simp [hm2]))]
    simp

/-! ### Claims C2 and C3 -/

/-- Well-formedness of a produced message, per the data model: magic 0, u8
attributes selecting no compression, bounded key/value sizes. -/
def msgWF (m : Message) : Prop :=
  m.magic = 0 ∧ m.attributes < 256 ∧
  m.attributes &&& ATTRIBUTE_CODEC_MASK = CODEC_NONE ∧
  (m.key.getD []).length < 2 ^ 28 ∧ (m.value.getD []).length < 2 ^ 28

instance (m : Message) : Decidable (msgWF m) := by
  unfold msgWF
  infer_instance

/-- C2: for every non-empty sequence of uncompressed messages,
`decode_message_set (encode_message_set msgs)` yields exactly the same
messages, in order, each paired with offset 0, because the encoder always
writes placeholder offset 0 in each `[offset:8][size:4][message]` entry.
`fuel` is the decoder's nesting-depth guard; any value beyond the number of
records suffices. -/
theorem claim_C2_message_set_roundtrip (dec : Codecs) (msgs : List Message) (fuel : Nat)
    (hne : msgs ≠ []) (hwf : ∀ m ∈ msgs, msgWF m) (hfuel : msgs.length < fuel) :
    (encode_message_set msgs).bind (decode_message_set dec fuel) =
      .ok (msgs.map (fun m => ((0 : Int), m))) := by
  rw [encode_message_set_eq msgs (fun m hm => (hwf m hm).1)]
  show decode_message_set dec fuel _ = _
  rw [decode_message_set]
  have hmap : (msgs.map (fun m => entryBytes 0 (messageBytes m))).flatten =
      ((msgs.map (fun m => ((0 : Int), m))).map
        (fun om => entryBytes om.1 (messageBytes om.2))).flatten ++ [] := by
    simp [List.map_map]
    rfl
  rw [hmap]
  apply decodeSetLoop_entries
  · intro om hom
    simp only [List.mem_map] at hom
    obtain ⟨m, hm, rfl⟩ := hom
    obtain ⟨h1, h2, h3, h4, h5⟩ := hwf m hm
    exact ⟨by norm_num, by norm_num, h1, h2, h3, h4, h5⟩
  · simp [hne]
  · simp
  · simpa using hfuel

/-- Witness for C2 at the two-message set of `test_encode_message_set` /
`test_decode_message_set` (keys k1,k2; values v1,v2). -/
theorem claim_C2_witness :
    (encode_message_set [create_message [118, 49] (some [107, 49]),
        create_message [118, 50] (some [107, 50])]).bind
      (decode_message_set noCodecs 3) =
    .ok [((0 : Int), create_message [118, 49] (some [107, 49])),
         ((0 : Int), create_message [118, 50] (some [107, 50]))] :=
  claim_C2_message_set_roundtrip noCodecs _ 3 (by decide)
    (by intro m hm; simp only [List.mem_cons, List.not_mem_nil, or_false] at hm
        rcases hm with rfl | rfl <;> exact (by decide))
    (by decide)

/-- C3: message-set decoding follows the truncation policy — a buffer of
`n ≥ 1` complete valid records followed by trailing bytes too short to hold
another record decodes to exactly those records, silently discarding the
tail, while a buffer whose very first record does not fit (a single byte,
or any buffer whose first size-prefixed read underflows) fails with the
distinguished ConsumerFetchSizeTooSmall error — not BufferUnderflowError
and not an empty result. -/
theorem claim_C3_truncation_policy :
    (∀ (dec : Codecs) (oms : List (Int × Message)) (tl : Bytes) (fuel : Nat),
      oms ≠ [] → (∀ om ∈ oms, entryWF om) → tl.length < 12 → oms.length < fuel →
      decode_message_set dec fuel
        ((oms.map (fun om => entryBytes om.1 (messageBytes om.2))).flatten ++ tl) =
        .ok oms) ∧
    (∀ (dec : Codecs) (data : Bytes) (fuel : Nat),
      data ≠ [] → 0 < fuel →
      (data.length < 8 ∨ read_int_string data 8 = .error .bufferUnderflow) →
      decode_message_set dec fuel data = .error .fetchSizeTooSmall) := by
  constructor
  · intro dec oms tl fuel hne hwf htl hfuel
    rw [decode_message_set]
    exact decodeSetLoop_entries dec oms tl hwf hne htl fuel false hfuel
  · intro dec data fuel hne hfuel hfit
    obtain ⟨f, rfl⟩ : ∃ f, fuel = f + 1 := ⟨fuel - 1, by omega⟩
    rw [decode_message_set, decodeSetLoop_succ]
    have h0 : data.length ≠ 0 := by
      intro h
      exact hne (List.length_eq_zero.mp h)
    rw [if_neg h0]
    by_cases h8 : data.length < 8
    · rw [if_pos h8]
      rfl
    · rw [if_neg h8]
      rcases hfit with h | hread
      · omega
      · rw [hread]
        rfl

/-- Witness for C3: the two-record buffer of
`test_decode_message_set_stop_iteration` with its 7 bytes of trailing
garbage decodes to exactly the two records, and the single-byte buffer of
`test_decode_message_set_fetch_size_too_small` raises fetch-size-too-small. -/
theorem claim_C3_witness :
    decode_message_set noCodecs 3
      ((([((0 : Int), create_message [118, 49] (some [107, 49])),
          ((1 : Int), create_message [118, 50] (some [107, 50]))].map
          (fun om => entryBytes om.1 (messageBytes om.2))).flatten) ++
        [64, 49, 36, 37, 40, 89, 33]) =
      .ok [((0 : Int), create_message [118, 49] (some [107, 49])),
           ((1 : Int), create_message [118, 50] (some [107, 50]))] ∧
    decode_message_set noCodecs 1 [97] = .error .fetchSizeTooSmall :=
  ⟨claim_C3_truncation_policy.1 noCodecs _ _ 3 (by decide)
    (by intro om hom; simp only [List.mem_cons, List.not_mem_nil, or_false] at hom
        rcases hom with rfl | rfl <;> exact (by decide))
    (by decide) (by decide),
   claim_C3_truncation_policy.2 noCodecs [97] 1 (by decide) (by decide)
    (Or.inl (by decide))⟩

/-! ### Claim C5: compressed records expand to the nested message set -/

/-- C5: for every message whose attributes select a compression codec other
than none, decoding that record decompresses its value through the adapter
registry, recursively decodes the result as a nested message set, and
yields the flattened inner `(offset, Message)` pairs instead of the outer
record; the outer offset supplied by the caller does not appear in the
result (the inner offsets take precedence). -/
theorem claim_C5_compressed_flattening (dec : Codecs) (fuel : Nat) (offset : Int)
    (data : Bytes) (m : Message) (v payload : Bytes)
    (hdec : decode_message data = .ok m)
    (hcodec : m.attributes &&& ATTRIBUTE_CODEC_MASK ≠ CODEC_NONE)
    (hval : m.value = some v)
    (hinf : dec (m.attributes &&& ATTRIBUTE_CODEC_MASK) v = .ok payload) :
    decode_message_expand dec fuel offset data = decode_message_set dec fuel payload := by
  rw [decode_message_expand, hdec]
  dsimp only
  rw [if_neg hcodec, hval]
  dsimp only
  rw [hinf]
  rfl

/-- Stand-in compressed payload used by the C5 witness (the adapters are
opaque byte-to-byte transforms to the codec core). -/
def gzPayload : Bytes := [9, 9, 9]

/-- Inner message set of the C5 witness: the encoded set of v1 and v2, as in
`test_decode_message_gzip`. -/
def gzInner : Bytes :=
  (encode_message_set [create_message [118, 49], create_message [118, 50]]).toOption.getD []

/-- Outer gzip-flagged message of the C5 witness (attributes select codec
tag 1, null key). -/
def gzOuterMsg : Message := ⟨0, 1, none, some gzPayload⟩

/-- Adapter registry of the C5 witness: tag 1 decompresses the stand-in
payload to the inner message set, everything else is rejected. -/
def gzCodecs : Codecs := fun c bs =>
  if c = 1 ∧ bs = gzPayload then .ok gzInner else .error .unsupportedCodec

/-- Witness for C5 at outer offset 11, mirroring `test_decode_message_gzip`:
the gzip-wrapped set of v1 and v2 decodes to `(0, msg v1), (0, msg v2)`. -/
theorem claim_C5_witness :
    decode_message_expand gzCodecs 3 11 ((encode_message gzOuterMsg).toOption.getD []) =
      .ok [((0 : Int), create_message [118, 49]), ((0 : Int), create_message [118, 50])] := by
  have h := claim_C5_compressed_flattening gzCodecs 3 11
    ((encode_message gzOuterMsg).toOption.getD []) gzOuterMsg gzPayload gzInner
    (by decide) (by decide) (by decide) (by decide)
  rw [h]
  decide

/-! ### Claim C6: the concrete produce request -/

/-- Client id "client1" as bytes. -/
def client1Bytes : Bytes := [99, 108, 105, 101, 110, 116, 49]

/-- Topic name "topic1" as bytes. -/
def topic1Bytes : Bytes := [116, 111, 112, 105, 99, 49]

/-- Topic name "topic2" as bytes. -/
def topic2Bytes : Bytes := [116, 111, 112, 105, 99, 50]

/-- Encoded message for value "a". -/
def msgABytes : Bytes := (encode_message (create_message [97])).toOption.getD []

/-- Encoded message for value "b". -/
def msgBBytes : Bytes := (encode_message (create_message [98])).toOption.getD []

/-- Encoded message for value "c". -/
def msgCBytes : Bytes := (encode_message (create_message [99])).toOption.getD []

/-- Expected produce-request header per `test_encode_produce_request`:
`[length=0x94][api_key=0][version=0][corr=2][client_id "client1"][acks=2]
[timeout=100][num_requests=2]`. -/
def produceExpectedHeader : Bytes :=
  intBytes 4 0x94 ++ intBytes 2 0 ++ intBytes 2 0 ++ intBytes 4 2 ++
    (intBytes 2 7 ++ client1Bytes) ++ intBytes 2 2 ++ intBytes 4 100 ++ intBytes 4 2

/-- Expected topic1 group: one partition 0 carrying the two-message set of
"a" and "b", offsets 0. -/
def produceExpectedTopic1 : Bytes :=
  (intBytes 2 6 ++ topic1Bytes) ++ intBytes 4 1 ++ intBytes 4 0 ++
    intBytes 4 ((msgABytes.length + msgBBytes.length + 24 : Nat) : Int) ++
    intBytes 8 0 ++ intBytes 4 (msgABytes.length : Int) ++ msgABytes ++
    intBytes 8 0 ++ intBytes 4 (msgBBytes.length : Int) ++ msgBBytes

/-- Expected topic2 group: one partition 1 carrying the one-message set of
"c", offset 0. -/
def produceExpectedTopic2 : Bytes :=
  (intBytes 2 6 ++ topic2Bytes) ++ intBytes 4 1 ++ intBytes 4 1 ++
    intBytes 4 ((msgCBytes.length + 12 : Nat) : Int) ++
    intBytes 8 0 ++ intBytes 4 (msgCBytes.length : Int) ++ msgCBytes

/-- C6: encoding ProduceRequest("topic1",0,[msg a, msg b]) and
ProduceRequest("topic2",1,[msg c]) with client id "client1", correlation id
2, acks 2, timeout 100 yields exactly the expected header followed by the
two topic groups, in one of the two orders. -/
theorem claim_C6_produce_request :
    encode_produce_request client1Bytes 2
      [⟨topic1Bytes, 0, [create_message [97], create_message [98]]⟩,
       ⟨topic2Bytes, 1, [create_message [99]]⟩] 2 100 =
      .ok (produceExpectedHeader ++ (produceExpectedTopic1 ++ produceExpectedTopic2)) ∨
    encode_produce_request client1Bytes 2
      [⟨topic1Bytes, 0, [create_message [97], create_message [98]]⟩,
       ⟨topic2Bytes, 1, [create_message [99]]⟩] 2 100 =
      .ok (produceExpectedHeader ++ (produceExpectedTopic2 ++ produceExpectedTopic1)) := by
  left
  decide

/-! ### Claim C10: grouping by topic and partition -/

theorem alookup_upsert_self {κ ν : Type} [DecidableEq κ] (k : κ) (v : ν)
    (l : List (κ × ν)) : alookup k (upsert k v l) = some v := by
  induction l with
  | nil => simp [upsert, alookup]
  | cons e rest ih =>
    obtain ⟨k1, v1⟩ := e
    by_cases h : k1 = k
    · simp [upsert, h, alookup]
    · simp [upsert, h, alookup, ih]

theorem alookup_upsert_ne {κ ν : Type} [DecidableEq κ] {k k2 : κ} (h : k2 ≠ k) (v : ν)
    (l : List (κ × ν)) : alookup k2 (upsert k v l) = alookup k2 l := by
  induction l with
  | nil =>
    have h2 : k ≠ k2 := Ne.symm h
    simp [upsert, alookup, h2]
  | cons e rest ih =>
    obtain ⟨k1, v1⟩ := e
    by_cases h1 : k1 = k
    · subst h1
      have h2 : k1 ≠ k2 := Ne.symm h
      simp [upsert, alookup, h2]
    · by_cases h2 : k1 = k2
      · subst h2
        simp [upsert, alookup, h1]
      · simp [upsert, alookup, h1, h2, ih]

theorem keys_upsert {κ ν : Type} [DecidableEq κ] (k : κ) (v : ν) (l : List (κ × ν)) :
    (upsert k v l).map Prod.fst =
      if k ∈ l.map Prod.fst then l.map Prod.fst else l.map Prod.fst ++ [k] := by
  induction l with
  | nil => simp [upsert]
  | cons e rest ih =>
    obtain ⟨k1, v1⟩ := e
    by_cases h : k1 = k
    · subst h
      simp [upsert]
    · have h2 : ¬ k = k1 := fun hh => h hh.symm
      by_cases hm : k ∈ rest.map Prod.fst <;> simp [upsert, h, h2, hm, ih]

theorem keysNodup_upsert {κ ν : Type} [DecidableEq κ] (k : κ) (v : ν)
    {l : List (κ × ν)} (h : (l.map Prod.fst).Nodup) :
    ((upsert k v l).map Prod.fst).Nodup := by
  rw [keys_upsert]
  split
  · exact h
  · rename_i hm
    refine List.Nodup.append h (List.nodup_singleton k) ?_
    intro a ha hb
    simp only [List.mem_singleton] at hb
    subst hb
    exact hm ha

theorem mem_upsert {κ ν : Type} [DecidableEq κ] {e : κ × ν} {k : κ} {v : ν}
    {l : List (κ × ν)} (h : e ∈ upsert k v l) : e = (k, v) ∨ e ∈ l := by
  induction l with
  | nil =>
    simp only [upsert, List.mem_singleton] at h
    exact Or.inl h
  | cons e1 rest ih =>
    obtain ⟨k1, v1⟩ := e1
    by_cases h1 : k1 = k
    · rw [upsert, if_pos h1] at h
      rcases List.mem_cons.mp h with h2 | h2
      · exact Or.inl h2
      · exact Or.inr (List.mem_cons.mpr (Or.inr h2))
    · rw [upsert, if_neg h1] at h
      rcases List.mem_cons.mp h with h2 | h2
      · exact Or.inr (List.mem_cons.mpr (Or.inl h2))
      · rcases ih h2 with h3 | h3
        · exact Or.inl h3
        · exact Or.inr (List.mem_cons.mpr (Or.inr h3))

theorem lookupTP_insertItem {α : Type} (topicOf : α → Bytes) (partOf : α → Int)
    (acc : List (Bytes × List (Int × α))) (x : α) (t : Bytes) (p : Int) :
    lookupTP (insertItem topicOf partOf acc x) t p =
      if topicOf x = t ∧ partOf x = p then some x else lookupTP acc t p := by
  rw [insertItem, lookupTP]
  by_cases ht : topicOf x = t
  · subst ht
    rw [alookup_upsert_self]
    dsimp only
    by_cases hp : partOf x = p
    · subst hp
      rw [alookup_upsert_self, if_pos ⟨rfl, rfl⟩]
    · have hp2 : p ≠ partOf x := Ne.symm hp
      rw [alookup_upsert_ne hp2]
      rw [if_neg (by simp [hp])]
      rw [lookupTP]
      cases hacc : alookup (topicOf x) acc with
      | none => simp [hacc, alookup]
      | some l0 => simp [hacc]
  · have ht2 : t ≠ topicOf x := Ne.symm ht
    rw [alookup_upsert_ne ht2]
    rw [if_neg (by simp [ht])]
    rw [lookupTP]

theorem lookupTP_foldl {α : Type} (topicOf : α → Bytes) (partOf : α → Int)
    (l : List α) (acc : List (Bytes × List (Int × α))) (t : Bytes) (p : Int) :
    lookupTP (l.foldl (insertItem topicOf partOf) acc) t p =
      (l.reverse.find? (fun x => decide (topicOf x = t) && decide (partOf x = p))).or
        (lookupTP acc t p) := by
  induction l generalizing acc with
  | nil => rfl
  | cons x l ih =>
    rw [List.foldl_cons, ih, List.reverse_cons, List.find?_append]
    cases hf : l.reverse.find? (fun x => decide (topicOf x = t) && decide (partOf x = p)) with
    | some y => rfl
    | none =>
      simp only [Option.none_or]
      rw [lookupTP_insertItem]
      by_cases hx : topicOf x = t ∧ partOf x = p
      · rw [if_pos hx]
        have : (fun x => decide (topicOf x = t) && decide (partOf x = p)) x = true := by
          simp [hx.1, hx.2]
        simp [List.find?, this]
      · rw [if_neg hx]
        have : (fun x => decide (topicOf x = t) && decide (partOf x = p)) x = false := by
          rcases not_and_or.mp hx with h | h <;> simp [h]
        simp [List.find?, this]

theorem group_keys_invariant {α : Type} (topicOf : α → Bytes) (partOf : α → Int)
    (l : List α) :
    ∀ (acc : List (Bytes × List (Int × α))),
      (acc.map Prod.fst).Nodup → (∀ e ∈ acc, (e.2.map Prod.fst).Nodup) →
      ((l.foldl (insertItem topicOf partOf) acc).map Prod.fst).Nodup ∧
      (∀ e ∈ l.foldl (insertItem topicOf partOf) acc, (e.2.map Prod.fst).Nodup) := by
  induction l with
  | nil => exact fun acc h1 h2 => ⟨h1, h2⟩
  | cons x l ih =>
    intro acc h1 h2
    rw [List.foldl_cons]
    refine ih _ (keysNodup_upsert _ _ h1) ?_
    intro e he
    rcases mem_upsert he with he2 | he2
    · subst he2
      refine keysNodup_upsert _ _ ?_
      cases hacc : alookup (topicOf x) acc with
      | none => simp
      | some l0 =>
        have hmem : ((topicOf x), l0) ∈ acc := by
          clear h1 h2 he ih
          induction acc with
          | nil => simp [alookup] at hacc
          | cons e1 rest ih2 =>
            obtain ⟨k1, v1⟩ := e1
            rw [alookup] at hacc
            by_cases hk : k1 = topicOf x
            · rw [if_pos hk] at hacc
              subst hk
              simp only [Option.some.injEq] at hacc
              subst hacc
              exact List.mem_cons_self _ _
            · rw [if_neg hk] at hacc
              exact List.mem_cons.mpr (Or.inr (ih2 hacc))
        simpa using h2 _ hmem
    · exact h2 _ he2

/-- C10: `group_by_topic_and_partition` returns a nested topic → partition →
item mapping with no duplicate topic keys and no duplicate partition keys
within a topic (exactly one entry per distinct pair), and the entry stored
under `(t, p)` is precisely the last input item with that key — duplicate
pairs in the input collapse silently to a single entry. -/
theorem claim_C10_grouping {α : Type} (topicOf : α → Bytes) (partOf : α → Int)
    (items : List α) :
    ((group_by_topic_and_partition topicOf partOf items).map Prod.fst).Nodup ∧
    (∀ e ∈ group_by_topic_and_partition topicOf partOf items, (e.2.map Prod.fst).Nodup) ∧
    (∀ (t : Bytes) (p : Int),
      lookupTP (group_by_topic_and_partition topicOf partOf items) t p =
        items.reverse.find? (fun x => decide (topicOf x = t) && decide (partOf x = p))) := by
  have hinv := group_keys_invariant topicOf partOf items [] (by simp) (by simp)
  refine ⟨hinv.1, hinv.2, ?_⟩
  intro t p
  rw [group_by_topic_and_partition, lookupTP_foldl]
  have : lookupTP ([] : List (Bytes × List (Int × α))) t p = none := rfl
  rw [this, Option.or_none]

/-! ### CRC-32 sensitivity to single-byte changes -/

theorem crcStep_inj {x y : Nat} (hx : x < 2 ^ 32) (hy : y < 2 ^ 32)
    (h : crcStep x = crcStep y) : x = y := by
  have hp31 : Nat.testBit CRC_POLY 31 = true := by decide
  rw [crcStep, crcStep] at h
  by_cases hx2 : x % 2 = 1 <;> by_cases hy2 : y % 2 = 1
  · rw [if_pos hx2, if_pos hy2] at h
    have h2 : x / 2 = y / 2 := by
      have h3 := congrArg (fun z => z ^^^ CRC_POLY) h
      simpa [Nat.xor_cancel_right] using h3
    omega
  · exfalso
    rw [if_pos hx2, if_neg hy2] at h
    have hbit := congrArg (fun z => Nat.testBit z 31) h
    have hx31 : Nat.testBit (x / 2) 31 = false := Nat.testBit_lt_two_pow (by omega)
    have hy31 : Nat.testBit (y / 2) 31 = false := Nat.testBit_lt_two_pow (by omega)
    simp [Nat.testBit_xor, hx31, hy31, hp31] at hbit
  · exfalso
    rw [if_neg hx2, if_pos hy2] at h
    have hbit := congrArg (fun z => Nat.testBit z 31) h
    have hx31 : Nat.testBit (x / 2) 31 = false := Nat.testBit_lt_two_pow (by omega)
    have hy31 : Nat.testBit (y / 2) 31 = false := Nat.testBit_lt_two_pow (by omega)
    simp [Nat.testBit_xor, hx31, hy31, hp31] at hbit
  · rw [if_neg hx2, if_neg hy2] at h
    omega

theorem crcStep8_inj {x y : Nat} (hx : x < 2 ^ 32) (hy : y < 2 ^ 32)
    (h : crcStep8 x = crcStep8 y) : x = y := by
  rw [crcStep8, crcStep8] at h
  have b1x := crcStep_lt hx
  have b2x := crcStep_lt b1x
  have b3x := crcStep_lt b2x
  have b4x := crcStep_lt b3x
  have b5x := crcStep_lt b4x
  have b6x := crcStep_lt b5x
  have b7x := crcStep_lt b6x
  have b1y := crcStep_lt hy
  have b2y := crcStep_lt b1y
  have b3y := crcStep_lt b2y
  have b4y := crcStep_lt b3y
  have b5y := crcStep_lt b4y
  have b6y := crcStep_lt b5y
  have b7y := crcStep_lt b6y
  exact crcStep_inj hx hy (crcStep_inj b1x b1y (crcStep_inj b2x b2y (crcStep_inj b3x b3y
    (crcStep_inj b4x b4y (crcStep_inj b5x b5y (crcStep_inj b6x b6y
      (crcStep_inj b7x b7y h)))))))

theorem crc32_update_inj_state {a b : Nat} (ha : a < 2 ^ 32) (hb : b < 2 ^ 32) (byte : Nat)
    (h : crc32_update a byte = crc32_update b byte) : a = b := by
  rw [crc32_update, crc32_update] at h
  have h2 := crcStep8_inj (Nat.xor_lt_two_pow ha (by omega))
    (Nat.xor_lt_two_pow hb (by omega)) h
  have h3 := congrArg (fun z => z ^^^ (byte % 256)) h2
  simpa [Nat.xor_cancel_right] using h3

theorem foldl_crc32_update_inj (l : Bytes) : ∀ {a b : Nat}, a < 2 ^ 32 → b < 2 ^ 32 →
    a ≠ b → l.foldl crc32_update a ≠ l.foldl crc32_update b := by
  induction l with
  | nil =>
    intro a b _ _ hne
    simpa using hne
  | cons x l ih =>
    intro a b ha hb hne
    simp only [List.foldl_cons]
    refine ih (crc32_update_lt ha x) (crc32_update_lt hb x) ?_
    intro heq
    exact hne (crc32_update_inj_state ha hb x heq)

theorem crc32_flip_ne (pre suf : Bytes) {b b2 : Nat} (hmod : b % 256 ≠ b2 % 256) :
    crc32 (pre ++ b :: suf) ≠ crc32 (pre ++ b2 :: suf) := by
  rw [crc32, crc32]
  intro heq
  have hxor := congrArg (fun z => z ^^^ 0xFFFFFFFF) heq
  simp only [Nat.xor_cancel_right] at hxor
  rw [List.foldl_append, List.foldl_append] at hxor
  simp only [List.foldl_cons] at hxor
  have hslt : pre.foldl crc32_update 0xFFFFFFFF < 2 ^ 32 :=
    foldl_crc32_update_lt (by norm_num) pre
  have hupne : crc32_update (pre.foldl crc32_update 0xFFFFFFFF) b ≠
      crc32_update (pre.foldl crc32_update 0xFFFFFFFF) b2 := by
    intro he
    rw [crc32_update, crc32_update] at he
    have h2 := crcStep8_inj (Nat.xor_lt_two_pow hslt (by omega))
      (Nat.xor_lt_two_pow hslt (by omega)) he
    have h3 := congrArg (fun z => (pre.foldl crc32_update 0xFFFFFFFF) ^^^ z) h2
    simp only [Nat.xor_cancel_left] at h3
    exact hmod h3
  exact foldl_crc32_update_inj suf (crc32_update_lt hslt b) (crc32_update_lt hslt b2)
    hupne hxor

/-! ### Claim C4: checksum enforcement -/

theorem decode_message_crc_mismatch (data : Bytes) (h4 : 4 ≤ data.length)
    (hne : beVal (data.take 4) ≠ crc32 (data.drop 4)) :
    decode_message data = .error .checksumError := by
  rw [decode_message]
  have hup : relative_unpack [4] data 0 = .ok ([beVal (data.take 4)], 4) := by
    rw [relative_unpack]
    have hsum : ([4] : List Nat).sum = 4 := by simp
    rw [hsum]
    rw [if_neg (by omega)]
    simp [unpackFieldsAux]
  rw [hup]
  dsimp only
  rw [if_pos (by simpa using hne)]

/-- Byte-level well-formedness of a message's fields: attributes is a u8 and
key/value hold octets. -/
def msgBytesOK (m : Message) : Prop :=
  m.attributes < 256 ∧ (∀ x ∈ m.key.getD [], x < 256) ∧ (∀ x ∈ m.value.getD [], x < 256)

instance (m : Message) : Decidable (msgBytesOK m) := by
  unfold msgBytesOK
  infer_instance

theorem mem_write_int_string_lt {k : Option Bytes} (h : ∀ x ∈ k.getD [], x < 256) :
    ∀ x ∈ write_int_string k, x < 256 := by
  cases k with
  | none =>
    intro x hx
    rw [write_int_string, intBytes] at hx
    exact mem_beBytes_lt _ _ x hx
  | some s =>
    intro x hx
    rw [write_int_string] at hx
    rcases List.mem_append.mp hx with h1 | h1
    · rw [intBytes] at h1
      exact mem_beBytes_lt _ _ x h1
    · exact h x (by simpa using h1)

theorem messageBody_bytes_lt {m : Message} (h : msgBytesOK m) :
    ∀ x ∈ messageBody m, x < 256 := by
  obtain ⟨h1, h2, h3⟩ := h
  intro x hx
  rw [messageBody] at hx
  rcases List.mem_append.mp hx with h4 | h4
  · rcases List.mem_append.mp h4 with h5 | h5
    · simp only [List.mem_cons, List.mem_singleton, List.not_mem_nil, or_false] at h5
      rcases h5 with rfl | rfl <;> omega
    · exact mem_write_int_string_lt h2 x h5
  · exact mem_write_int_string_lt h3 x h4

theorem messageBytes_bytes_lt {m : Message} (h : msgBytesOK m) :
    ∀ x ∈ messageBytes m, x < 256 := by
  intro x hx
  rw [messageBytes] at hx
  rcases List.mem_append.mp hx with h4 | h4
  · exact mem_beBytes_lt _ _ x h4
  · exact messageBody_bytes_lt h x h4

theorem beVal_inj {l l2 : Bytes} (hlen : l.length = l2.length)
    (hb : ∀ x ∈ l, x < 256) (hb2 : ∀ x ∈ l2, x < 256) (h : beVal l = beVal l2) :
    l = l2 := by
  have e1 := beBytes_beVal l l.length rfl hb
  have e2 := beBytes_beVal l2 l2.length rfl hb2
  rw [← e1, ← e2, h, hlen]

theorem set_getD_self (l : Bytes) (j : Nat) (h : j < l.length) :
    l.set j (l.getD j 0) = l := by
  induction l generalizing j with
  | nil => simp at h
  | cons a t ih =>
    cases j with
    | zero => simp
    | succ j2 =>
      simp only [List.length_cons] at h
      show a :: t.set j2 (t.getD j2 0) = a :: t
      rw [ih j2 (by omega)]

theorem getD_append (A B : Bytes) (i : Nat) :
    (A ++ B).getD i 0 = if i < A.length then A.getD i 0 else B.getD (i - A.length) 0 := by
  rw [List.getD_eq_getElem?_getD, List.getElem?_append]
  split <;> rw [← List.getD_eq_getElem?_getD]

/-- C4: decoding fails with ChecksumError on every buffer whose stored 4-byte
CRC differs from the CRC-32 recomputed over the bytes after the CRC field
(never a false accept, never partial output); in particular replacing any
single byte of a validly encoded message — whether in the CRC field itself or
in the magic/attributes/key/value region — by a different byte value causes
ChecksumError. -/
theorem claim_C4_checksum_enforcement :
    (∀ (data : Bytes), 4 ≤ data.length →
      beVal (data.take 4) ≠ crc32 (data.drop 4) →
      decode_message data = .error .checksumError) ∧
    (∀ (m : Message) (enc : Bytes) (i b2 : Nat),
      encode_message m = .ok enc → msgBytesOK m →
      i < enc.length → b2 < 256 → b2 ≠ enc.getD i 0 →
      decode_message (enc.set i b2) = .error .checksumError) := by
  constructor
  · exact decode_message_crc_mismatch
  · intro m enc i b2 henc hok hi hb2 hneq
    have hmagic : m.magic = 0 := by
      by_contra hmg
      rw [encode_message, if_neg hmg] at henc
      exact Except.noConfusion henc
    rw [encode_message, if_pos hmagic] at henc
    have henc2 : messageBytes m = enc := by
      injection henc
    subst henc2
    have hbytes : ∀ x ∈ messageBytes m, x < 256 := messageBytes_bytes_lt hok
    have hc : crc32 (messageBody m) < 2 ^ 32 := crc32_lt _
    have hcb : beVal (beBytes 4 (crc32 (messageBody m))) = crc32 (messageBody m) := by
      rw [beVal_beBytes]
      have h2 : (256 : Nat) ^ 4 = 2 ^ 32 := by norm_num
      omega
    have hlen4 : (beBytes 4 (crc32 (messageBody m))).length = 4 := beBytes_length _ _
    have hilen : i < 4 + (messageBody m).length := by
      rw [messageBytes] at hi
      simpa [hlen4] using hi
    by_cases hi4 : i < 4
    · -- corruption of the CRC field itself
      have hset : (messageBytes m).set i b2 =
          (beBytes 4 (crc32 (messageBody m))).set i b2 ++ messageBody m := by
        rw [messageBytes, List.set_append, if_pos (by omega)]
      rw [hset]
      apply decode_message_crc_mismatch
      · simp [List.length_set, hlen4]
      · have htake : ((beBytes 4 (crc32 (messageBody m))).set i b2 ++
            messageBody m).take 4 = (beBytes 4 (crc32 (messageBody m))).set i b2 :=
          List.take_left' (by simp [List.length_set, hlen4])
        have hdrop : ((beBytes 4 (crc32 (messageBody m))).set i b2 ++
            messageBody m).drop 4 = messageBody m :=
          List.drop_left' (by simp [List.length_set, hlen4])
        rw [htake, hdrop]
        intro habs
        have heqL : (beBytes 4 (crc32 (messageBody m))).set i b2 =
            beBytes 4 (crc32 (messageBody m)) := by
          refine beVal_inj (by simp [List.length_set]) ?_ ?_ ?_
          · intro x hx
            rcases List.mem_or_eq_of_mem_set hx with h5 | h5
            · exact mem_beBytes_lt _ _ x h5
            · omega
          · exact mem_beBytes_lt _ _
          · rw [habs, hcb]
        have hgot := congrArg (fun l => l.getD i 0) heqL
        simp only at hgot
        have hsetD : ((beBytes 4 (crc32 (messageBody m))).set i b2).getD i 0 = b2 := by
          rw [List.getD_eq_getElem?_getD,
            List.getElem?_eq_getElem (by simp [List.length_set, hlen4, hi4])]
          simp [List.getElem_set_self]
        rw [hsetD] at hgot
        apply hneq
        rw [messageBytes, getD_append, if_pos (by omega)]
        exact hgot
    · -- corruption inside the magic/attributes/key/value region
      have hj : i - 4 < (messageBody m).length := by omega
      have hset : (messageBytes m).set i b2 =
          beBytes 4 (crc32 (messageBody m)) ++ (messageBody m).set (i - 4) b2 := by
        rw [messageBytes, List.set_append, if_neg (by omega), hlen4]
      rw [hset]
      apply decode_message_crc_mismatch
      · simp [hlen4]
      · have htake : (beBytes 4 (crc32 (messageBody m)) ++
            (messageBody m).set (i - 4) b2).take 4 =
            beBytes 4 (crc32 (messageBody m)) := List.take_left' hlen4
        have hdrop : (beBytes 4 (crc32 (messageBody m)) ++
            (messageBody m).set (i - 4) b2).drop 4 =
            (messageBody m).set (i - 4) b2 := List.drop_left' hlen4
        rw [htake, hdrop, hcb]
        have hdecomp : messageBody m =
            (messageBody m).take (i - 4) ++ (messageBody m).getD (i - 4) 0 ::
              (messageBody m).drop (i - 4 + 1) := by
          conv_lhs => rw [← set_getD_self (messageBody m) (i - 4) hj]
          rw [List.set_eq_take_append_cons_drop, if_pos hj]
        have hsetdecomp : (messageBody m).set (i - 4) b2 =
            (messageBody m).take (i - 4) ++ b2 :: (messageBody m).drop (i - 4 + 1) := by
          rw [List.set_eq_take_append_cons_drop, if_pos hj]
        rw [hsetdecomp]
        conv_lhs => rw [hdecomp]
        apply crc32_flip_ne
        have horig : (messageBody m).getD (i - 4) 0 < 256 := by
          have hmem : (messageBody m).getD (i - 4) 0 ∈ messageBody m := by
            rw [List.getD_eq_getElem?_getD, List.getElem?_eq_getElem hj]
            exact List.getElem_mem hj
          exact messageBody_bytes_lt hok _ hmem
        have hnb : b2 ≠ (messageBody m).getD (i - 4) 0 := by
          intro habs2
          apply hneq
          rw [messageBytes, getD_append, if_neg (by omega), hlen4]
          exact habs2
        rw [Nat.mod_eq_of_lt horig, Nat.mod_eq_of_lt hb2]
        intro habs3
        exact hnb habs3.symm

/-- Witness for C4: the garbage buffer of `test_decode_message_checksum_error`
("This is not a valid encoded message") fails with ChecksumError, and so does
a valid encoding of message (key "key", value "test") with its magic byte
(position 4) overwritten by 1. -/
theorem claim_C4_witness :
    decode_message [84, 104, 105, 115, 32, 105, 115, 32, 110, 111, 116, 32, 97, 32, 118,
        97, 108, 105, 100, 32, 101, 110, 99, 111, 100, 101, 100, 32, 109, 101, 115, 115,
        97, 103, 101] = .error .checksumError ∧
    decode_message (((encode_message (create_message [116, 101, 115, 116]
        (some [107, 101, 121]))).toOption.getD []).set 4 1) = .error .checksumError :=
  ⟨claim_C4_checksum_enforcement.1 _ (by decide) (by decide),
   claim_C4_checksum_enforcement.2 (create_message [116, 101, 115, 116] (some [107, 101, 121]))
     _ 4 1 (by decide) (by decide) (by decide) (by decide) (by decide)⟩

end KafkaSpec
